import Mathlib

/-!
Shallow embedding of the GYF-Care backend assignment engine.

Sources embedded:
  * `src/algorithms/greedy.py` (`_severity_rank`, `greedy_assign`)
  * `src/algorithms/hungarian.py` (`hungarian`)
  * `src/algorithms/min_cost_flow.py` (`min_cost_flow`)
  * `src/services/business_assignment_service.py`
      (`infer_specialty`, the priority loop of `assign_best_hospital_for_patient`,
       the node-membership guard of `compute_path_algorithms`)

Modelling conventions:
  * Python floats for coordinates and kilometre distances are modelled by `ℚ`.
  * The haversine distance `distancia_km` / `haversine` is a pure trigonometric
    function of the four coordinates; the claims below depend only on how its
    results are compared and propagated, so it is passed in as an abstract
    parameter `dist4 : ℚ → ℚ → ℚ → ℚ → ℚ` of the same arity.
  * The external solvers `scipy.optimize.linear_sum_assignment` and
    `networkx.network_simplex` are third-party libraries; their outputs are
    passed in as values and their documented contracts appear as explicit
    predicates (`LSAshape`, `FeasibleFlow`).
-/

/-- Membership of a character list at the front of another (needle, hay). -/
def chMatch : List Char → List Char → Bool
  | [], _ => true
  | _ :: _, [] => false
  | a :: as, b :: bs => a = b && chMatch as bs

/-- Substring search on character lists (needle, hay). -/
def hasSub (needle : List Char) : List Char → Bool
  | [] => chMatch needle []
  | b :: bs => chMatch needle (b :: bs) || hasSub needle bs

/-- Python's substring containment `needle in hay`. -/
def strContains (hay needle : String) : Bool :=
  hasSub needle.data hay.data

/-- Python's `str.lower()` (ASCII case mapping suffices for this domain). -/
def pyLower (s : String) : String :=
  ⟨s.data.map Char.toLower⟩

/-- Python's `str.strip()`: whitespace removed from both ends. -/
def pyTrim (s : String) : String :=
  ⟨((s.data.dropWhile Char.isWhitespace).reverse.dropWhile Char.isWhitespace).reverse⟩

/-- Python's `str.startswith(pre)`. -/
def strStarts (s pre : String) : Bool :=
  chMatch pre.data s.data

/-- A patient record as consumed by the solvers: keys "id", "lat", "lon", "severity". -/
structure Patient where
  id : String
  lat : ℚ
  lon : ℚ
  severity : String
deriving Repr, DecidableEq, Inhabited

/-- A hospital record as consumed by the solvers: keys "id", "lat", "lon", "capacity";
the "capacity" key may be absent (`none`). -/
structure Hospital where
  id : String
  lat : ℚ
  lon : ℚ
  capacity : Option Int
deriving Repr, DecidableEq, Inhabited

/-- One entry of the list returned by `greedy_assign` and `min_cost_flow`:
keys "patient", "hospital" (possibly `None`), "distance" (possibly `None`). -/
structure Assignment where
  patient : String
  hospital : Option String
  distance : Option ℚ
deriving Repr, DecidableEq

/-- Embeds `_severity_rank` of `src/algorithms/greedy.py`:
0 for grave/critical, 1 for moderate, 2 for mild/unknown. -/
def severityRank (sev : String) : Nat :=
  if sev = "" then 2
  else
    let s := pyLower (pyTrim sev)
    if strStarts s "g" || strContains s "crít" || strContains s "crit" then 0
    else if strStarts s "m" then 1
    else 2

/-- The sort key relation used by `greedy_assign`'s
`sorted(patients, key=lambda p: _severity_rank(...))`. -/
def leRank : Patient → Patient → Prop :=
  fun a b => severityRank a.severity ≤ severityRank b.severity

instance : DecidableRel leRank :=
  fun a b => inferInstanceAs (Decidable (severityRank a.severity ≤ severityRank b.severity))

instance : IsTotal Patient leRank :=
  ⟨fun a b => Nat.le_total (severityRank a.severity) (severityRank b.severity)⟩

instance : IsTrans Patient leRank :=
  ⟨fun _ _ _ hab hbc => Nat.le_trans hab hbc⟩

/-- Capacity normalisation in `greedy_assign`: an absent or non-positive
capacity is replaced by the sentinel 10^9. -/
def hospCapG (h : Hospital) : Int :=
  match h.capacity with
  | none => 10 ^ 9
  | some c => if c ≤ 0 then 10 ^ 9 else c

/-- The `capacities` dict of `greedy_assign`, built by one pass over the
hospital list (later entries with the same id overwrite earlier ones);
a missing key reads as 0, matching `capacities.get(hid, 0)`. -/
def initCaps (hospitals : List Hospital) : String → Int :=
  hospitals.foldl (fun caps h => fun s => if s = h.id then hospCapG h else caps s) (fun _ => 0)

/-- One step of the hospital scan in `greedy_assign`: hospitals with
non-positive remaining capacity are skipped, and the running best is replaced
only when the new distance is strictly smaller (`d < best_d`). -/
def scanStep (dist4 : ℚ → ℚ → ℚ → ℚ → ℚ) (p : Patient) (caps : String → Int)
    (acc : Option (String × ℚ)) (h : Hospital) : Option (String × ℚ) :=
  if caps h.id ≤ 0 then acc
  else
    let d := dist4 p.lat p.lon h.lat h.lon
    match acc with
    | none => some (h.id, d)
    | some (bh, bd) => if d < bd then some (h.id, d) else some (bh, bd)

/-- The inner `for h in hospitals` scan of `greedy_assign`, returning
`(best_h, best_d)` or `none`. -/
def bestHospital (dist4 : ℚ → ℚ → ℚ → ℚ → ℚ) (p : Patient) (caps : String → Int)
    (hospitals : List Hospital) : Option (String × ℚ) :=
  hospitals.foldl (scanStep dist4 p caps) none

/-- The main loop of `greedy_assign` over the severity-sorted patients,
threading the mutable `capacities` dict. -/
def greedyLoop (dist4 : ℚ → ℚ → ℚ → ℚ → ℚ) (hospitals : List Hospital) :
    List Patient → (String → Int) → List Assignment
  | [], _ => []
  | p :: ps, caps =>
    match bestHospital dist4 p caps hospitals with
    | none => ⟨p.id, none, none⟩ :: greedyLoop dist4 hospitals ps caps
    | some (bh, bd) =>
        ⟨p.id, some bh, some bd⟩ ::
          greedyLoop dist4 hospitals ps (fun s => if s = bh then caps s - 1 else caps s)

/-- Embeds `greedy_assign` of `src/algorithms/greedy.py`. Python's `sorted`
is a stable sort by the severity-rank key, embedded as `List.insertionSort`
over `leRank` (insertion sort is stable for a reflexive-total key order). -/
def greedy_assign (dist4 : ℚ → ℚ → ℚ → ℚ → ℚ)
    (patients : List Patient) (hospitals : List Hospital) : List Assignment :=
  greedyLoop dist4 hospitals (List.insertionSort leRank patients) (initCaps hospitals)

/-- One entry of the list returned by `hungarian`:
keys "patient", "hospital", "dist_km". -/
structure HungAssignment where
  patient : String
  hospital : String
  dist_km : ℚ
deriving Repr, DecidableEq

/-- Entry `cost[i][j]` of the cost matrix built by `hungarian`
(0 outside the matrix; the solver contract keeps indices in range). -/
def costAt (dist4 : ℚ → ℚ → ℚ → ℚ → ℚ)
    (patients : List Patient) (hospitals : List Hospital) (rc : Nat × Nat) : ℚ :=
  match patients[rc.1]?, hospitals[rc.2]? with
  | some p, some h => dist4 p.lat p.lon h.lat h.lon
  | _, _ => 0

/-- Total cost of a row/column pairing against the cost matrix. -/
def totalCost (dist4 : ℚ → ℚ → ℚ → ℚ → ℚ)
    (patients : List Patient) (hospitals : List Hospital) (pairs : List (Nat × Nat)) : ℚ :=
  (pairs.map (costAt dist4 patients hospitals)).sum

/-- One output row of `hungarian` for a matched pair `(r, c)` of
`zip(row_ind, col_ind)`. Out-of-range indices (never produced by the solver)
yield a dummy row. -/
def hungarianRow (dist4 : ℚ → ℚ → ℚ → ℚ → ℚ)
    (patients : List Patient) (hospitals : List Hospital) (rc : Nat × Nat) : HungAssignment :=
  match patients[rc.1]?, hospitals[rc.2]? with
  | some p, some h => ⟨p.id, h.id, dist4 p.lat p.lon h.lat h.lon⟩
  | _, _ => ⟨"", "", 0⟩

/-- Embeds `hungarian` of `src/algorithms/hungarian.py`. The pairing
`pairs` stands for `zip(row_ind, col_ind)` as returned by
`scipy.optimize.linear_sum_assignment(cost)`; the scipy call itself is
external library code, so its output is a parameter and its documented
contract is the predicate `LSAshape` (shape) plus cost-minimality. -/
def hungarian (dist4 : ℚ → ℚ → ℚ → ℚ → ℚ)
    (patients : List Patient) (hospitals : List Hospital)
    (pairs : List (Nat × Nat)) : List HungAssignment :=
  pairs.map (hungarianRow dist4 patients hospitals)

/-- Modelled contract of `scipy.optimize.linear_sum_assignment` (shape part):
on a `P×H` cost matrix it returns `min P H` index pairs, all in range, with
no row and no column repeated. -/
def LSAshape (P H : Nat) (pairs : List (Nat × Nat)) : Prop :=
  pairs.length = min P H ∧
  (∀ rc ∈ pairs, rc.1 < P ∧ rc.2 < H) ∧
  (pairs.map Prod.fst).Nodup ∧
  (pairs.map Prod.snd).Nodup

instance (P H : Nat) (pairs : List (Nat × Nat)) : Decidable (LSAshape P H pairs) := by
  unfold LSAshape; infer_instance

/-- Capacity put on the `hospital -> T` edge by `min_cost_flow`: an absent or
non-positive capacity is replaced by the number of patients. -/
def hospCapF (nPatients : Nat) (h : Hospital) : Int :=
  match h.capacity with
  | none => (nPatients : Int)
  | some c => if c ≤ 0 then (nPatients : Int) else c

/-- The flow-interpretation step of `min_cost_flow` for one patient: the
first hospital (in edge-insertion order, which is hospital-list order) with
positive flow on the `patient -> hospital` edge, excluding the reserved node
ids "S" and "T"; the assigned hospital is then looked up again in the
hospital list to recompute the real distance (`next(hh for hh in hospitals
if hh["id"] == assigned_h)`). The second `none` branch mirrors the
`StopIteration` case, unreachable because the id was found in the list. -/
def mcfAssign (dist4 : ℚ → ℚ → ℚ → ℚ → ℚ) (hospitals : List Hospital)
    (fd : String → String → Int) (p : Patient) : Assignment :=
  match hospitals.find? (fun h =>
      decide (0 < fd p.id h.id) && !(decide (h.id = "S")) && !(decide (h.id = "T"))) with
  | none => ⟨p.id, none, none⟩
  | some h0 =>
    match hospitals.find? (fun hh => decide (hh.id = h0.id)) with
    | some h => ⟨p.id, some h0.id, some (dist4 p.lat p.lon h.lat h.lon)⟩
    | none => ⟨p.id, some h0.id, none⟩

/-- Embeds `min_cost_flow` of `src/algorithms/min_cost_flow.py`. The
`solver` argument stands for the guarded call `nx.network_simplex(G)` on the
constructed network: `none` models the `except Exception` branch (the solver
raised), `some fd` models a returned flow dict, read as
`fd u v = flow_dict[u][v]` on the network's edges. -/
def min_cost_flow (dist4 : ℚ → ℚ → ℚ → ℚ → ℚ)
    (patients : List Patient) (hospitals : List Hospital)
    (solver : Option (String → String → Int)) : List Assignment :=
  match solver with
  | none => patients.map (fun p => ⟨p.id, none, none⟩)
  | some fd => patients.map (mcfAssign dist4 hospitals fd)

/-- Modelled contract of `nx.network_simplex` on the network built by
`min_cost_flow` (source `S`, one node per patient, one node per hospital,
sink `T`): a returned flow dict respects every edge capacity, conserves flow
at patient and hospital nodes, and meets the demand of `len(patients)` units
leaving `S`. -/
def FeasibleFlow (patients : List Patient) (hospitals : List Hospital)
    (fd : String → String → Int) : Prop :=
  (∀ p ∈ patients, 0 ≤ fd "S" p.id ∧ fd "S" p.id ≤ 1) ∧
  (∀ p ∈ patients, ∀ h ∈ hospitals, 0 ≤ fd p.id h.id ∧ fd p.id h.id ≤ 1) ∧
  (∀ h ∈ hospitals, 0 ≤ fd h.id "T" ∧ fd h.id "T" ≤ hospCapF patients.length h) ∧
  (∀ p ∈ patients, fd "S" p.id = (hospitals.map (fun h => fd p.id h.id)).sum) ∧
  (∀ h ∈ hospitals, (patients.map (fun p => fd p.id h.id)).sum = fd h.id "T") ∧
  (patients.map (fun p => fd "S" p.id)).sum = (patients.length : Int)

instance (patients : List Patient) (hospitals : List Hospital) (fd : String → String → Int) :
    Decidable (FeasibleFlow patients hospitals fd) := by
  unfold FeasibleFlow; infer_instance

/-- The ordered keyword table of `infer_specialty` in
`src/services/business_assignment_service.py` (Python dicts iterate in
insertion order, so the literal's order is the lookup order). -/
def specialtyMapping : List (String × String) :=
  [("fractura", "Traumatología"),
   ("luxación", "Traumatología"),
   ("traumatismo", "Traumatología"),
   ("tce", "Traumatología"),
   ("infarto", "Cardiología"),
   ("trombosis", "Cardiología"),
   ("hipertensión", "Cardiología"),
   ("renal", "Nefrología"),
   ("insuficiencia renal", "Nefrología"),
   ("niño", "Pediatría"),
   ("menor", "Pediatría"),
   ("broncoespasmo", "Neumología"),
   ("neumonía", "Neumología")]

/-- The `for keyword, spec in mapping.items()` loop of `infer_specialty`:
returns the specialty of the first keyword contained in `e`. -/
def lookupSpecialty (e : String) : List (String × String) → Option String
  | [] => none
  | (kw, sp) :: rest => if strContains e kw then some sp else lookupSpecialty e rest

/-- Embeds `infer_specialty` of `src/services/business_assignment_service.py`:
empty diagnosis falls to the default, otherwise the first keyword of the
ordered table contained in the lowercased diagnosis decides the specialty,
with default "Medicina Interna". -/
def infer_specialty (enfermedad : String) : String :=
  if enfermedad = "" then "Medicina Interna"
  else
    let e := pyLower enfermedad
    match lookupSpecialty e specialtyMapping with
    | some sp => sp
    | none => "Medicina Interna"

/-- One entry of the `assignment_algorithms` list inspected by
`assign_best_hospital_for_patient`: the algorithm name and the (possibly
absent) assigned-hospital payload, here reduced to the hospital id. -/
structure AlgoEntry where
  name : String
  hospital : Option String
deriving Repr, DecidableEq

/-- The fixed priority list of `assign_best_hospital_for_patient`. -/
def priorityList : List String :=
  ["Min-Cost Max-Flow", "Hungarian", "Greedy"]

/-- Embeds the double loop of `assign_best_hospital_for_patient`: for each
name in priority order, take the first entry with that name and a truthy
hospital payload; stop at the first hit. A `none` result models the
`ValueError` raised when no algorithm assigned a hospital. -/
def chooseBest (algos : List AlgoEntry) : Option AlgoEntry :=
  priorityList.findSome? (fun algName =>
    algos.find? (fun a => decide (a.name = algName) && a.hospital.isSome))

/-- One result dict built by `compute_path_algorithms` for Dijkstra or
Bellman-Ford: the distance and the node sequence of the path. -/
structure PathAlgoResult where
  distance : ℚ
  path_nodes : List String
deriving Repr, DecidableEq

/-- Adjacency-list graph held by the service (`self.graph`): node id to
weighted neighbour list; `x in graph` is key membership. -/
abbrev WGraph := List (String × List (String × ℚ))

/-- Key membership `node in self.graph`. -/
def graphHasNode (g : WGraph) (n : String) : Bool :=
  g.any (fun kv => decide (kv.1 = n))

/-- Embeds `compute_path_algorithms` of
`src/services/business_assignment_service.py`. The path algorithms
`dijkstra` and `bellman_ford` live in repository files not present under
`src/` and are irrelevant to the guard, so they are abstract parameters
returning a (distance, path) pair; the embedded part is the membership guard
that returns `{"dijkstra": None, "bellman_ford": None}` when either node is
missing from the graph. -/
def compute_path_algorithms
    (dij bf : WGraph → String → String → ℚ × List String)
    (g : WGraph) (patient_id hospital_id : String) :
    Option PathAlgoResult × Option PathAlgoResult :=
  if !(graphHasNode g patient_id) || !(graphHasNode g hospital_id) then
    (none, none)
  else
    let d := dij g patient_id hospital_id
    let b := bf g patient_id hospital_id
    (some ⟨d.1, d.2⟩, some ⟨b.1, b.2⟩)

/-- Number of entries of an assignment list naming a given hospital id. -/
def countAssigned (results : List Assignment) (hid : String) : Nat :=
  (results.filter (fun a => decide (a.hospital = some hid))).length

/-- Number of entries of a `hungarian` output naming a given hospital id. -/
def countHosp (results : List HungAssignment) (hid : String) : Nat :=
  (results.filter (fun a => decide (a.hospital = hid))).length

/-! ### Helper lemmas -/

lemma severityRank_grave : severityRank "grave" = 0 := by decide

lemma severityRank_moderado : severityRank "moderado" = 1 := by decide

lemma severityRank_leve : severityRank "leve" = 2 := by decide

/-- The keyword loop of `infer_specialty` equals a first-match lookup. -/
lemma lookupSpecialty_eq_find (e : String) (tbl : List (String × String)) :
    lookupSpecialty e tbl = (tbl.find? (fun kv => strContains e kv.1)).map Prod.snd := by
  induction tbl with
  | nil => rfl
  | cons kv rest ih =>
    obtain ⟨kw, sp⟩ := kv
    by_cases h : strContains e kw
    · simp [lookupSpecialty, h, List.find?_cons_of_pos]
    · rw [show lookupSpecialty e ((kw, sp) :: rest) = lookupSpecialty e rest from by
        simp [lookupSpecialty, h]]
      rw [List.find?_cons_of_neg _ (by simp [h]), ih]

/-- The greedy loop emits exactly one assignment per patient, in order. -/
lemma greedyLoop_patients (dist4 : ℚ → ℚ → ℚ → ℚ → ℚ) (hospitals : List Hospital) :
    ∀ (ps : List Patient) (caps : String → Int),
      (greedyLoop dist4 hospitals ps caps).map Assignment.patient = ps.map Patient.id := by
  intro ps
  induction ps with
  | nil => intro caps; rfl
  | cons p rest ih =>
    intro caps
    cases hbh : bestHospital dist4 p caps hospitals with
    | none => simp [greedyLoop, hbh, ih]
    | some bd =>
      obtain ⟨bh, bd⟩ := bd
      simp [greedyLoop, hbh, ih]

/-- Insertion at the severity-stable position does not reorder the members
of any single rank class. -/
lemma filter_rank_orderedInsert (k : Nat) (a : Patient) (l : List Patient) :
    (List.orderedInsert leRank a l).filter (fun x => decide (severityRank x.severity = k))
      = if severityRank a.severity = k
        then a :: l.filter (fun x => decide (severityRank x.severity = k))
        else l.filter (fun x => decide (severityRank x.severity = k)) := by
  induction l with
  | nil =>
    simp only [List.orderedInsert, List.filter]
    split <;> simp_all
  | cons b t ih =>
    by_cases hab : leRank a b
    · rw [List.orderedInsert, if_pos hab, List.filter_cons]
      split <;> simp_all [List.filter_cons]
    · rw [List.orderedInsert, if_neg hab]
      have hblt : severityRank b.severity < severityRank a.severity :=
        Nat.lt_of_not_le hab
      by_cases hpa : severityRank a.severity = k
      · have hpb : ¬ severityRank b.severity = k := by omega
        simp [List.filter_cons, hpa, hpb, ih]
      · simp [List.filter_cons, hpa, ih]

/-- Stability of the severity sort: each rank class keeps its input order. -/
lemma filter_rank_insertionSort (k : Nat) (l : List Patient) :
    (List.insertionSort leRank l).filter (fun x => decide (severityRank x.severity = k))
      = l.filter (fun x => decide (severityRank x.severity = k)) := by
  induction l with
  | nil => rfl
  | cons a t ih =>
    rw [List.insertionSort, filter_rank_orderedInsert]
    split <;> simp_all [List.filter_cons]

/-! ### Claim theorems -/

/-- C3: when the min-cost-flow network solver fails (the guarded
`nx.network_simplex` call raises, modelled by `solver = none`),
`min_cost_flow` returns exactly one entry per input patient, each with
hospital and distance `None`, and no exception escapes (the embedded
function is total). -/
theorem mcf_solver_failure_all_unassigned (dist4 : ℚ → ℚ → ℚ → ℚ → ℚ)
    (patients : List Patient) (hospitals : List Hospital) :
    min_cost_flow dist4 patients hospitals none
        = patients.map (fun p => ⟨p.id, none, none⟩) ∧
    (min_cost_flow dist4 patients hospitals none).length = patients.length ∧
    ∀ a ∈ min_cost_flow dist4 patients hospitals none,
      a.hospital = none ∧ a.distance = none := by
  refine ⟨rfl, by simp [min_cost_flow], ?_⟩
  intro a ha
  simp only [min_cost_flow, List.mem_map] at ha
  obtain ⟨p, _, rfl⟩ := ha
  exact ⟨rfl, rfl⟩

/-- Witness for C3 at a concrete instance. -/
theorem mcf_solver_failure_all_unassigned_witness :
    min_cost_flow (fun _ _ _ _ => 0) [⟨"Q1", 0, 0, "grave"⟩] [⟨"H1", 0, 0, some 1⟩] none
      = [⟨"Q1", none, none⟩] := by
  have h := (mcf_solver_failure_all_unassigned (fun _ _ _ _ => 0)
    [⟨"Q1", 0, 0, "grave"⟩] [⟨"H1", 0, 0, some 1⟩]).1
  simpa using h

/-- C6 counterexample: the default specialty returned by `infer_specialty`
is the string "Medicina Interna", not "General Medicine" as the claim
states, shown at the empty diagnosis. -/
theorem infer_specialty_default_not_general_medicine :
    infer_specialty "" = "Medicina Interna" ∧
    ¬ infer_specialty "" = "General Medicine" := by
  exact ⟨by decide, by decide⟩

/-- C6 (amended): for every diagnosis string, `infer_specialty` returns the
specialty of the first keyword of the fixed ordered table contained in the
lowercased diagnosis, and the default "Medicina Interna" when the diagnosis
is empty or no keyword matches. -/
theorem infer_specialty_first_keyword (e : String) :
    infer_specialty e =
      if e = "" then "Medicina Interna"
      else (((specialtyMapping.find? (fun kv => strContains (pyLower e) kv.1)).map
              Prod.snd).getD "Medicina Interna") := by
  simp only [infer_specialty, lookupSpecialty_eq_find]
  split
  · rfl
  · generalize (specialtyMapping.find? (fun kv => strContains (pyLower e) kv.1)).map Prod.snd = o
    cases o <;> rfl

/-- C8: when either requested node id is not a key of the configured graph,
`compute_path_algorithms` returns `None` for both Dijkstra and
Bellman-Ford, for every choice of the two (abstract) path algorithms,
without signalling an error. -/
theorem compute_path_missing_node
    (dij bf : WGraph → String → String → ℚ × List String)
    (g : WGraph) (patient_id hospital_id : String)
    (h : graphHasNode g patient_id = false ∨ graphHasNode g hospital_id = false) :
    compute_path_algorithms dij bf g patient_id hospital_id = (none, none) := by
  unfold compute_path_algorithms
  rcases h with h | h <;> simp [h]

/-- Witness for C8 at a concrete graph and node pair. -/
theorem compute_path_missing_node_witness :
    graphHasNode [("a", [])] "b" = false ∧
    compute_path_algorithms (fun _ _ _ => (0, [])) (fun _ _ _ => (0, []))
      [("a", [])] "b" "a" = (none, none) :=
  ⟨by decide,
   compute_path_missing_node _ _ _ _ _ (Or.inl (by decide))⟩

/-- C7: the choice loop of `assign_best_hospital_for_patient` over the
three per-algorithm entries (in the order the comparison produces them)
returns the Min-Cost Max-Flow entry whenever it carries a hospital,
otherwise the Hungarian entry whenever it carries one, otherwise the Greedy
entry, and nothing (the `ValueError` branch) when none does; in particular a
lower-priority entry is returned only when every higher-priority entry
carries no hospital. -/
theorem assign_best_priority (g hu m : AlgoEntry)
    (hg : g.name = "Greedy") (hh : hu.name = "Hungarian")
    (hm : m.name = "Min-Cost Max-Flow") :
    chooseBest [g, hu, m] =
      if m.hospital.isSome then some m
      else if hu.hospital.isSome then some hu
      else if g.hospital.isSome then some g
      else none := by
  cases hmo : m.hospital <;> cases huo : hu.hospital <;> cases hgo : g.hospital <;>
    simp [chooseBest, priorityList, List.findSome?, List.find?, hg, hh, hm, hmo, huo, hgo]

/-- Witness for C7 at concrete entries: the Hungarian entry wins exactly
when the Min-Cost Max-Flow entry is empty. -/
theorem assign_best_priority_witness :
    chooseBest [⟨"Greedy", some "HA"⟩, ⟨"Hungarian", some "HB"⟩, ⟨"Min-Cost Max-Flow", none⟩]
      = some ⟨"Hungarian", some "HB"⟩ := by
  have h := assign_best_priority ⟨"Greedy", some "HA"⟩ ⟨"Hungarian", some "HB"⟩
    ⟨"Min-Cost Max-Flow", none⟩ rfl rfl rfl
  simpa using h

/-- C9: `greedy_assign` is deterministic (identical inputs give identical
output, the embedding being a pure function), and it processes patients in
severity-then-input order: the output lists one entry per patient in the
order of the stable severity sort, that order is sorted by severity rank,
and within each rank class the input order is preserved. -/
theorem greedy_deterministic_severity_order (dist4 : ℚ → ℚ → ℚ → ℚ → ℚ)
    (patients : List Patient) (hospitals : List Hospital) :
    (∀ patients2 hospitals2, patients2 = patients → hospitals2 = hospitals →
        greedy_assign dist4 patients2 hospitals2 = greedy_assign dist4 patients hospitals) ∧
    (greedy_assign dist4 patients hospitals).map Assignment.patient
        = (List.insertionSort leRank patients).map Patient.id ∧
    List.Sorted leRank (List.insertionSort leRank patients) ∧
    (∀ k, (List.insertionSort leRank patients).filter
            (fun x => decide (severityRank x.severity = k))
        = patients.filter (fun x => decide (severityRank x.severity = k))) := by
  refine ⟨?_, ?_, ?_, ?_⟩
  · rintro _ _ rfl rfl; rfl
  · exact greedyLoop_patients dist4 hospitals (List.insertionSort leRank patients) _
  · exact List.sorted_insertionSort leRank patients
  · intro k; exact filter_rank_insertionSort k patients

/-- Distance fixture for witnesses: a table of literal values keyed on the
coordinates, avoiding rational arithmetic so that `decide` evaluates it. -/
def dWit : ℚ → ℚ → ℚ → ℚ → ℚ := fun plat _ hlat _ =>
  if hlat = 0 then (if plat = 1 then 1 else if plat = 2 then 2 else 3)
  else (if plat = 1 then 11 else if plat = 2 then 12 else 13)

/-- Witness for C9 at a concrete instance: the grave patient, although
second in the input, is processed first. -/
theorem greedy_deterministic_severity_order_witness :
    (greedy_assign dWit [⟨"P2", 2, 0, "leve"⟩, ⟨"P1", 1, 0, "grave"⟩]
        [⟨"H1", 0, 0, some 1⟩]).map Assignment.patient = ["P1", "P2"] :=
  ((greedy_deterministic_severity_order dWit
      [⟨"P2", 2, 0, "leve"⟩, ⟨"P1", 1, 0, "grave"⟩] [⟨"H1", 0, 0, some 1⟩]).2.1).trans
    (by decide)

/-- C2: on the instance with three patients of severities grave, mild
("leve"), moderate ("moderado") in that input order and two hospitals of
capacity 1 each, where H1 is strictly nearer than H2 to every patient,
`greedy_assign` sends the grave patient to H1, then the moderate patient to
the farther H2, and leaves the mild patient unassigned. -/
theorem greedy_example_three_patients
    (dist4 : ℚ → ℚ → ℚ → ℚ → ℚ)
    (la1 lo1 la2 lo2 la3 lo3 x1 y1 x2 y2 : ℚ)
    (h1 : dist4 la1 lo1 x1 y1 < dist4 la1 lo1 x2 y2)
    (h2 : dist4 la2 lo2 x1 y1 < dist4 la2 lo2 x2 y2)
    (h3 : dist4 la3 lo3 x1 y1 < dist4 la3 lo3 x2 y2) :
    greedy_assign dist4
        [⟨"P1", la1, lo1, "grave"⟩, ⟨"P2", la2, lo2, "leve"⟩, ⟨"P3", la3, lo3, "moderado"⟩]
        [⟨"H1", x1, y1, some 1⟩, ⟨"H2", x2, y2, some 1⟩]
      = [⟨"P1", some "H1", some (dist4 la1 lo1 x1 y1)⟩,
         ⟨"P3", some "H2", some (dist4 la3 lo3 x2 y2)⟩,
         ⟨"P2", none, none⟩] := by
  have hnot : ¬ leRank (⟨"P2", la2, lo2, "leve"⟩ : Patient) ⟨"P3", la3, lo3, "moderado"⟩ := by
    simp [leRank, severityRank_leve, severityRank_moderado]
  have hyes : leRank (⟨"P1", la1, lo1, "grave"⟩ : Patient) ⟨"P3", la3, lo3, "moderado"⟩ := by
    simp [leRank, severityRank_grave, severityRank_moderado]
  have hsort : List.insertionSort leRank
      [(⟨"P1", la1, lo1, "grave"⟩ : Patient), ⟨"P2", la2, lo2, "leve"⟩,
       ⟨"P3", la3, lo3, "moderado"⟩]
      = [⟨"P1", la1, lo1, "grave"⟩, ⟨"P3", la3, lo3, "moderado"⟩,
         ⟨"P2", la2, lo2, "leve"⟩] := by
    simp [List.insertionSort, List.orderedInsert, hnot, hyes]
  unfold greedy_assign
  rw [hsort]
  have hng : ¬ dist4 la1 lo1 x2 y2 < dist4 la1 lo1 x1 y1 := not_lt.mpr h1.le
  simp [greedyLoop, bestHospital, scanStep, initCaps, hospCapG, hng]

/-- Witness for C2 at concrete coordinates and distances. -/
theorem greedy_example_three_patients_witness :
    greedy_assign dWit
        [⟨"P1", 1, 0, "grave"⟩, ⟨"P2", 2, 0, "leve"⟩, ⟨"P3", 3, 0, "moderado"⟩]
        [⟨"H1", 0, 0, some 1⟩, ⟨"H2", 10, 0, some 1⟩]
      = [⟨"P1", some "H1", some 1⟩, ⟨"P3", some "H2", some 13⟩, ⟨"P2", none, none⟩] := by
  rw [greedy_example_three_patients dWit 1 0 2 0 3 0 0 0 10 0
    (by decide) (by decide) (by decide)]
  decide

/-- Hospitals that the scan of `greedy_assign` does not skip: remaining
capacity strictly positive, in input order. -/
def availHospitals (caps : String → Int) (hospitals : List Hospital) : List Hospital :=
  hospitals.filter (fun h => !(decide (caps h.id ≤ 0)))

/-- One scan step keeps the invariant that the current best hospital has
positive remaining capacity. -/
lemma scanStep_pos (dist4 : ℚ → ℚ → ℚ → ℚ → ℚ) (p : Patient) (caps : String → Int)
    (acc : Option (String × ℚ)) (h : Hospital)
    (hacc : ∀ b d, acc = some (b, d) → 0 < caps b) :
    ∀ b d, scanStep dist4 p caps acc h = some (b, d) → 0 < caps b := by
  intro b d hstep
  unfold scanStep at hstep
  by_cases hc : caps h.id ≤ 0
  · rw [if_pos hc] at hstep
    exact hacc b d hstep
  · rw [if_neg hc] at hstep
    cases acc with
    | none =>
      simp only [Option.some.injEq, Prod.mk.injEq] at hstep
      exact hstep.1 ▸ not_le.mp hc
    | some bd0 =>
      obtain ⟨b0, d0⟩ := bd0
      have hacc0 : 0 < caps b0 := hacc b0 d0 rfl
      dsimp only at hstep
      split at hstep <;> simp only [Option.some.injEq, Prod.mk.injEq] at hstep
      · exact hstep.1 ▸ not_le.mp hc
      · exact hstep.1 ▸ hacc0

/-- The whole scan keeps the positive-capacity invariant. -/
lemma foldl_scanStep_pos (dist4 : ℚ → ℚ → ℚ → ℚ → ℚ) (p : Patient) (caps : String → Int) :
    ∀ (hs : List Hospital) (acc : Option (String × ℚ)),
      (∀ b d, acc = some (b, d) → 0 < caps b) →
      ∀ b d, hs.foldl (scanStep dist4 p caps) acc = some (b, d) → 0 < caps b := by
  intro hs
  induction hs with
  | nil => intro acc hacc b d hf; exact hacc b d hf
  | cons h t ih =>
    intro acc hacc b d hf
    rw [List.foldl_cons] at hf
    exact ih _ (scanStep_pos dist4 p caps acc h hacc) b d hf

/-- A winning hospital of the scan always has positive remaining capacity. -/
lemma bestHospital_pos (dist4 : ℚ → ℚ → ℚ → ℚ → ℚ) (p : Patient) (caps : String → Int)
    (hospitals : List Hospital) (b : String) (d : ℚ)
    (hbest : bestHospital dist4 p caps hospitals = some (b, d)) : 0 < caps b := by
  unfold bestHospital at hbest
  exact foldl_scanStep_pos dist4 p caps hospitals none (by intro b' d' h; cases h) b d hbest

/-- Count bookkeeping over a cons cell. -/
lemma countAssigned_cons (a : Assignment) (l : List Assignment) (hid : String) :
    countAssigned (a :: l) hid
      = (if a.hospital = some hid then 1 else 0) + countAssigned l hid := by
  by_cases hh : a.hospital = some hid <;>
    simp [countAssigned, List.filter_cons, hh, Nat.add_comm]

/-- Loop invariant behind C1 for Greedy: the number of assignments the loop
makes to a hospital id never exceeds its remaining capacity. -/
lemma greedyLoop_count_le (dist4 : ℚ → ℚ → ℚ → ℚ → ℚ) (hospitals : List Hospital)
    (hid : String) :
    ∀ (ps : List Patient) (caps : String → Int), 0 ≤ caps hid →
      (countAssigned (greedyLoop dist4 hospitals ps caps) hid : Int) ≤ caps hid := by
  intro ps
  induction ps with
  | nil => intro caps h0; simpa [greedyLoop, countAssigned] using h0
  | cons p rest ih =>
    intro caps h0
    cases hbh : bestHospital dist4 p caps hospitals with
    | none =>
      have hrec := ih caps h0
      simp only [greedyLoop, hbh, countAssigned_cons]
      simpa using hrec
    | some bd =>
      obtain ⟨bh, bd⟩ := bd
      by_cases hbhid : bh = hid
      · subst hbhid
        have hpos : 0 < caps bh := bestHospital_pos dist4 p caps hospitals bh bd hbh
        have hrec := ih (fun s => if s = bh then caps s - 1 else caps s) (by simp; omega)
        simp at hrec
        simp only [greedyLoop, hbh, countAssigned_cons, if_pos rfl]
        push_cast
        omega
      · have hne : ¬ (hid = bh) := fun he => hbhid he.symm
        have hrec := ih (fun s => if s = bh then caps s - 1 else caps s)
          (by simpa [hne] using h0)
        simp only [if_neg hne] at hrec
        simp only [greedyLoop, hbh, countAssigned_cons]
        have hhead : ¬ ((some bh : Option String) = some hid) := by simpa using hbhid
        simpa [hhead] using hrec

/-- Keys outside the hospital list are untouched by the capacity build. -/
lemma foldl_initCaps_notmem :
    ∀ (l : List Hospital) (g : String → Int) (s : String), s ∉ l.map Hospital.id →
      (l.foldl (fun caps h => fun s' => if s' = h.id then hospCapG h else caps s') g) s = g s := by
  intro l
  induction l with
  | nil => intro g s _; rfl
  | cons a t ih =>
    intro g s hs
    simp only [List.map_cons, List.mem_cons, not_or] at hs
    rw [List.foldl_cons, ih _ s hs.2]
    simp [hs.1]

/-- On a duplicate-free hospital list the capacity build reads back each
hospital's normalised capacity. -/
lemma foldl_initCaps_mem :
    ∀ (l : List Hospital) (g : String → Int) (h : Hospital),
      (l.map Hospital.id).Nodup → h ∈ l →
      (l.foldl (fun caps h' => fun s' => if s' = h'.id then hospCapG h' else caps s') g) h.id
        = hospCapG h := by
  intro l
  induction l with
  | nil => intro g h _ hmem; cases hmem
  | cons a t ih =>
    intro g h hnodup hmem
    simp only [List.map_cons, List.nodup_cons] at hnodup
    rcases List.mem_cons.mp hmem with rfl | hmem'
    · rw [List.foldl_cons, foldl_initCaps_notmem t _ h.id hnodup.1]
      simp
    · rw [List.foldl_cons]
      exact ih _ h hnodup.2 hmem'

/-- The starting `capacities` entry of a hospital with a positive declared
capacity is that capacity. -/
lemma initCaps_eq_cap (hospitals : List Hospital) (h : Hospital) (cap : Int)
    (hnodup : (hospitals.map Hospital.id).Nodup) (hmem : h ∈ hospitals)
    (hcap : h.capacity = some cap) (hpos : 0 < cap) :
    initCaps hospitals h.id = cap := by
  unfold initCaps
  rw [foldl_initCaps_mem hospitals _ h hnodup hmem]
  simp [hospCapG, hcap, not_le.mpr hpos]

/-- C1, Greedy part: the assignments to a positively-capacitated hospital
never exceed its starting capacity. -/
lemma greedy_capacity_le (dist4 : ℚ → ℚ → ℚ → ℚ → ℚ)
    (patients : List Patient) (hospitals : List Hospital) (h : Hospital) (cap : Int)
    (hnodup : (hospitals.map Hospital.id).Nodup) (hmem : h ∈ hospitals)
    (hcap : h.capacity = some cap) (hpos : 0 < cap) :
    (countAssigned (greedy_assign dist4 patients hospitals) h.id : Int) ≤ cap := by
  unfold greedy_assign
  have hinit := initCaps_eq_cap hospitals h cap hnodup hmem hcap hpos
  have := greedyLoop_count_le dist4 hospitals h.id
    (List.insertionSort leRank patients) (initCaps hospitals) (by rw [hinit]; omega)
  rw [hinit] at this
  exact this

/-- Full characterisation of the scan continued from a current best
`(bid, bd)`: either nothing beats `bd` and the accumulator survives, or the
result is the first available hospital that strictly improves on `bd` and on
every available hospital before it, and weakly on every one after it. -/
lemma scanFold_char (dist4 : ℚ → ℚ → ℚ → ℚ → ℚ) (p : Patient) (caps : String → Int) :
    ∀ (hs : List Hospital) (bid : String) (bd : ℚ),
      (hs.foldl (scanStep dist4 p caps) (some (bid, bd)) = some (bid, bd) ∧
        ∀ h ∈ availHospitals caps hs, bd ≤ dist4 p.lat p.lon h.lat h.lon) ∨
      (∃ pre h0 post, availHospitals caps hs = pre ++ h0 :: post ∧
        hs.foldl (scanStep dist4 p caps) (some (bid, bd))
          = some (h0.id, dist4 p.lat p.lon h0.lat h0.lon) ∧
        dist4 p.lat p.lon h0.lat h0.lon < bd ∧
        (∀ h ∈ pre, dist4 p.lat p.lon h0.lat h0.lon < dist4 p.lat p.lon h.lat h.lon) ∧
        (∀ h ∈ post, dist4 p.lat p.lon h0.lat h0.lon ≤ dist4 p.lat p.lon h.lat h.lon)) := by
  intro hs
  induction hs with
  | nil => intro bid bd; left; exact ⟨rfl, by simp [availHospitals]⟩
  | cons h t ih =>
    intro bid bd
    by_cases hc : caps h.id ≤ 0
    · have havail : availHospitals caps (h :: t) = availHospitals caps t := by
        simp [availHospitals, List.filter_cons, hc]
      have hstep : scanStep dist4 p caps (some (bid, bd)) h = some (bid, bd) := by
        simp [scanStep, hc]
      rw [List.foldl_cons, hstep, havail]
      exact ih bid bd
    · have havail : availHospitals caps (h :: t) = h :: availHospitals caps t := by
        simp [availHospitals, List.filter_cons, hc]
      by_cases hlt : dist4 p.lat p.lon h.lat h.lon < bd
      · have hstep : scanStep dist4 p caps (some (bid, bd)) h
            = some (h.id, dist4 p.lat p.lon h.lat h.lon) := by
          simp [scanStep, hc, hlt]
        rw [List.foldl_cons, hstep, havail]
        rcases ih h.id (dist4 p.lat p.lon h.lat h.lon) with
          ⟨hfold, hall⟩ | ⟨pre, h0, post, he, hfold, hld, hpre, hpost⟩
        · exact Or.inr ⟨[], h, availHospitals caps t, by simp, hfold, hlt, by simp, hall⟩
        · refine Or.inr ⟨h :: pre, h0, post, by rw [he]; rfl, hfold, lt_trans hld hlt, ?_, hpost⟩
          intro hh hmem
          rcases List.mem_cons.mp hmem with rfl | hmem'
          · exact hld
          · exact hpre hh hmem'
      · have hstep : scanStep dist4 p caps (some (bid, bd)) h = some (bid, bd) := by
          simp [scanStep, hc, hlt]
        rw [List.foldl_cons, hstep, havail]
        rcases ih bid bd with
          ⟨hfold, hall⟩ | ⟨pre, h0, post, he, hfold, hld, hpre, hpost⟩
        · refine Or.inl ⟨hfold, ?_⟩
          intro hh hmem
          rcases List.mem_cons.mp hmem with rfl | hmem'
          · exact not_lt.mp hlt
          · exact hall hh hmem'
        · refine Or.inr ⟨h :: pre, h0, post, by rw [he]; rfl, hfold, hld, ?_, hpost⟩
          intro hh hmem
          rcases List.mem_cons.mp hmem with rfl | hmem'
          · exact lt_of_lt_of_le hld (not_lt.mp hlt)
          · exact hpre hh hmem'

/-- Full characterisation of `bestHospital`: on an empty available set the
scan returns nothing; otherwise it returns the first available hospital of
minimum distance, strictly closer than every available hospital before it
and at most as far as every available hospital after it. -/
lemma bestHospital_char (dist4 : ℚ → ℚ → ℚ → ℚ → ℚ) (p : Patient) (caps : String → Int) :
    ∀ hs : List Hospital,
      (availHospitals caps hs = [] ∧ bestHospital dist4 p caps hs = none) ∨
      (∃ pre h0 post, availHospitals caps hs = pre ++ h0 :: post ∧
        bestHospital dist4 p caps hs = some (h0.id, dist4 p.lat p.lon h0.lat h0.lon) ∧
        (∀ h ∈ pre, dist4 p.lat p.lon h0.lat h0.lon < dist4 p.lat p.lon h.lat h.lon) ∧
        (∀ h ∈ post, dist4 p.lat p.lon h0.lat h0.lon ≤ dist4 p.lat p.lon h.lat h.lon)) := by
  intro hs
  induction hs with
  | nil => left; exact ⟨rfl, rfl⟩
  | cons h t ih =>
    by_cases hc : caps h.id ≤ 0
    · have havail : availHospitals caps (h :: t) = availHospitals caps t := by
        simp [availHospitals, List.filter_cons, hc]
      have hstep : scanStep dist4 p caps none h = none := by
        simp [scanStep, hc]
      unfold bestHospital at ih ⊢
      rw [List.foldl_cons, hstep, havail]
      exact ih
    · have havail : availHospitals caps (h :: t) = h :: availHospitals caps t := by
        simp [availHospitals, List.filter_cons, hc]
      have hstep : scanStep dist4 p caps none h
          = some (h.id, dist4 p.lat p.lon h.lat h.lon) := by
        simp [scanStep, hc]
      unfold bestHospital
      rw [List.foldl_cons, hstep, havail]
      rcases scanFold_char dist4 p caps t h.id (dist4 p.lat p.lon h.lat h.lon) with
        ⟨hfold, hall⟩ | ⟨pre, h0, post, he, hfold, hld, hpre, hpost⟩
      · exact Or.inr ⟨[], h, availHospitals caps t, rfl, hfold, by simp, hall⟩
      · refine Or.inr ⟨h :: pre, h0, post, by rw [he]; rfl, hfold, ?_, hpost⟩
        intro hh hmem
        rcases List.mem_cons.mp hmem with rfl | hmem'
        · exact hld
        · exact hpre hh hmem'

/-- C10: in the hospital scan of `greedy_assign`, the chosen hospital is the
first available one attaining the minimum distance: it is strictly closer
than every available hospital scanned before it and at most as far as every
available hospital after it, so an exact distance tie is resolved in favour
of the hospital earliest in the input list (the scan replaces the running
best only on a strictly smaller distance). -/
theorem greedy_distance_tie_input_order (dist4 : ℚ → ℚ → ℚ → ℚ → ℚ)
    (p : Patient) (caps : String → Int) (hospitals : List Hospital)
    (hne : availHospitals caps hospitals ≠ []) :
    ∃ pre h0 post,
      availHospitals caps hospitals = pre ++ h0 :: post ∧
      bestHospital dist4 p caps hospitals
        = some (h0.id, dist4 p.lat p.lon h0.lat h0.lon) ∧
      (∀ h ∈ pre, dist4 p.lat p.lon h0.lat h0.lon < dist4 p.lat p.lon h.lat h.lon) ∧
      (∀ h ∈ post, dist4 p.lat p.lon h0.lat h0.lon ≤ dist4 p.lat p.lon h.lat h.lon) := by
  rcases bestHospital_char dist4 p caps hospitals with ⟨hemp, -⟩ | hchar
  · exact absurd hemp hne
  · exact hchar

/-- Witness for C10: two available hospitals at the same literal distance 1
from the patient; the scan returns the first one. -/
theorem greedy_distance_tie_input_order_witness :
    availHospitals (fun _ => 1) [⟨"H1", 0, 0, some 1⟩, ⟨"H2", 0, 0, some 1⟩] ≠ [] ∧
    bestHospital dWit ⟨"P1", 1, 0, "grave"⟩ (fun _ => 1)
        [⟨"H1", 0, 0, some 1⟩, ⟨"H2", 0, 0, some 1⟩] = some ("H1", 1) := by
  constructor
  · decide
  · have hex := greedy_distance_tie_input_order dWit ⟨"P1", 1, 0, "grave"⟩ (fun _ => 1)
      [⟨"H1", 0, 0, some 1⟩, ⟨"H2", 0, 0, some 1⟩] (by decide)
    decide

/-- The distance field of a `hungarian` output row is the cost-matrix entry. -/
lemma hungarianRow_dist (dist4 : ℚ → ℚ → ℚ → ℚ → ℚ)
    (patients : List Patient) (hospitals : List Hospital) (rc : Nat × Nat) :
    (hungarianRow dist4 patients hospitals rc).dist_km
      = costAt dist4 patients hospitals rc := by
  unfold hungarianRow costAt
  cases patients[rc.1]? <;> cases hospitals[rc.2]? <;> rfl

/-- An in-range `hungarian` output row, spelled out. -/
lemma hungarianRow_eq (dist4 : ℚ → ℚ → ℚ → ℚ → ℚ)
    (patients : List Patient) (hospitals : List Hospital) (rc : Nat × Nat)
    (h1 : rc.1 < patients.length) (h2 : rc.2 < hospitals.length) :
    hungarianRow dist4 patients hospitals rc
      = ⟨(patients.get ⟨rc.1, h1⟩).id, (hospitals.get ⟨rc.2, h2⟩).id,
         dist4 (patients.get ⟨rc.1, h1⟩).lat (patients.get ⟨rc.1, h1⟩).lon
           (hospitals.get ⟨rc.2, h2⟩).lat (hospitals.get ⟨rc.2, h2⟩).lon⟩ := by
  unfold hungarianRow
  rw [List.getElem?_eq_getElem h1, List.getElem?_eq_getElem h2]
  rfl

/-- Positions in a list whose image under `f` is duplicate-free are
determined by their image. -/
lemma map_index_inj {α β : Type} (f : α → β) (l : List α)
    (hnodup : (l.map f).Nodup) (i j : Nat) (hi : i < l.length) (hj : j < l.length)
    (hf : f (l.get ⟨i, hi⟩) = f (l.get ⟨j, hj⟩)) : i = j := by
  have hi' : i < (l.map f).length := by simpa using hi
  have hj' : j < (l.map f).length := by simpa using hj
  apply (@List.Nodup.getElem_inj_iff _ (l.map f) hnodup i hi' j hj').mp
  rw [List.getElem_map, List.getElem_map]
  simpa using hf

/-- A duplicate-free list whose members are all equal has at most one. -/
lemma length_le_one_of_nodup_const {α : Type} (l : List α) (hnd : l.Nodup)
    (hconst : ∀ x ∈ l, ∀ y ∈ l, x = y) : l.length ≤ 1 := by
  cases l with
  | nil => simp
  | cons a t =>
    cases t with
    | nil => simp
    | cons b t2 =>
      exfalso
      have hab : a = b := hconst a (by simp) b (by simp)
      have hnd' := List.nodup_cons.mp hnd
      exact hnd'.1 (hab ▸ List.mem_cons_self b t2)

/-- C1, Hungarian part: with duplicate-free hospital ids and a shape-correct
solver pairing, at most one output row (hence at most the positive capacity)
names any given hospital. -/
lemma hungarian_capacity_le (dist4 : ℚ → ℚ → ℚ → ℚ → ℚ)
    (patients : List Patient) (hospitals : List Hospital) (h : Hospital) (cap : Int)
    (hnodupH : (hospitals.map Hospital.id).Nodup) (hpos : 0 < cap)
    (pairs : List (Nat × Nat))
    (hshape : LSAshape patients.length hospitals.length pairs) :
    (countHosp (hungarian dist4 patients hospitals pairs) h.id : Int) ≤ cap := by
  obtain ⟨hlen, hrange, hfst, hsnd⟩ := hshape
  have hcount : countHosp (hungarian dist4 patients hospitals pairs) h.id ≤ 1 := by
    unfold countHosp hungarian
    rw [List.filter_map, List.length_map]
    apply length_le_one_of_nodup_const
    · exact List.Nodup.sublist (List.filter_sublist pairs) (List.Nodup.of_map _ hsnd)
    · intro x hx y hy
      have hx' := List.mem_filter.mp hx
      have hy' := List.mem_filter.mp hy
      have hxr := hrange x hx'.1
      have hyr := hrange y hy'.1
      have hxid : (hospitals.get ⟨x.2, hxr.2⟩).id = h.id := by
        have hx2 := hx'.2
        simp only [Function.comp_apply,
          hungarianRow_eq dist4 patients hospitals x hxr.1 hxr.2] at hx2
        simpa using hx2
      have hyid : (hospitals.get ⟨y.2, hyr.2⟩).id = h.id := by
        have hy2 := hy'.2
        simp only [Function.comp_apply,
          hungarianRow_eq dist4 patients hospitals y hyr.1 hyr.2] at hy2
        simpa using hy2
      have hsnd_eq : x.2 = y.2 :=
        map_index_inj Hospital.id hospitals hnodupH x.2 y.2 hxr.2 hyr.2
          (hxid.trans hyid.symm)
      exact List.inj_on_of_nodup_map hsnd hx'.1 hy'.1 hsnd_eq
  calc (countHosp (hungarian dist4 patients hospitals pairs) h.id : Int)
      ≤ 1 := by exact_mod_cast hcount
    _ ≤ cap := by omega

/-- C4: with the modelled `linear_sum_assignment` contract (shape-correct,
cost-minimal pairing) and duplicate-free ids, `hungarian` returns exactly
`min P H` rows forming a matching (no patient and no hospital repeated)
whose total distance is minimal over all shape-correct pairings, and the
hospital capacities play no role in the result. -/
theorem hungarian_optimal_matching (dist4 : ℚ → ℚ → ℚ → ℚ → ℚ)
    (patients : List Patient) (hospitals : List Hospital) (pairs : List (Nat × Nat))
    (hshape : LSAshape patients.length hospitals.length pairs)
    (hopt : ∀ pairs', LSAshape patients.length hospitals.length pairs' →
      totalCost dist4 patients hospitals pairs ≤ totalCost dist4 patients hospitals pairs')
    (hnodupP : (patients.map Patient.id).Nodup)
    (hnodupH : (hospitals.map Hospital.id).Nodup) :
    (hungarian dist4 patients hospitals pairs).length
        = min patients.length hospitals.length ∧
    ((hungarian dist4 patients hospitals pairs).map HungAssignment.patient).Nodup ∧
    ((hungarian dist4 patients hospitals pairs).map HungAssignment.hospital).Nodup ∧
    (∀ pairs', LSAshape patients.length hospitals.length pairs' →
      ((hungarian dist4 patients hospitals pairs).map HungAssignment.dist_km).sum
        ≤ totalCost dist4 patients hospitals pairs') ∧
    (∀ f : Hospital → Option Int,
      hungarian dist4 patients (hospitals.map (fun h => { h with capacity := f h })) pairs
        = hungarian dist4 patients hospitals pairs) := by
  obtain ⟨hlen, hrange, hfst, hsnd⟩ := hshape
  refine ⟨?_, ?_, ?_, ?_, ?_⟩
  · unfold hungarian
    rw [List.length_map]
    exact hlen
  · unfold hungarian
    rw [List.map_map]
    apply List.Nodup.map_on ?_ (List.Nodup.of_map _ hfst)
    intro x hx y hy hxy
    have hxr := hrange x hx
    have hyr := hrange y hy
    simp only [Function.comp_apply,
      hungarianRow_eq dist4 patients hospitals x hxr.1 hxr.2,
      hungarianRow_eq dist4 patients hospitals y hyr.1 hyr.2] at hxy
    have hfst_eq : x.1 = y.1 :=
      map_index_inj Patient.id patients hnodupP x.1 y.1 hxr.1 hyr.1 (by simpa using hxy)
    exact List.inj_on_of_nodup_map hfst hx hy hfst_eq
  · unfold hungarian
    rw [List.map_map]
    apply List.Nodup.map_on ?_ (List.Nodup.of_map _ hsnd)
    intro x hx y hy hxy
    have hxr := hrange x hx
    have hyr := hrange y hy
    simp only [Function.comp_apply,
      hungarianRow_eq dist4 patients hospitals x hxr.1 hxr.2,
      hungarianRow_eq dist4 patients hospitals y hyr.1 hyr.2] at hxy
    have hsnd_eq : x.2 = y.2 :=
      map_index_inj Hospital.id hospitals hnodupH x.2 y.2 hxr.2 hyr.2 (by simpa using hxy)
    exact List.inj_on_of_nodup_map hsnd hx hy hsnd_eq
  · intro pairs' hs'
    have hmapeq : (hungarian dist4 patients hospitals pairs).map HungAssignment.dist_km
        = pairs.map (costAt dist4 patients hospitals) := by
      unfold hungarian
      rw [List.map_map]
      exact List.map_congr_left (fun rc _ => hungarianRow_dist dist4 patients hospitals rc)
    rw [hmapeq]
    exact hopt pairs' hs'
  · intro f
    unfold hungarian
    apply List.map_congr_left
    intro rc _
    unfold hungarianRow
    rw [List.getElem?_map]
    cases patients[rc.1]? <;> cases hospitals[rc.2]? <;> rfl

/-- Witness for C4 on the 1×1 instance, with the solver contract discharged
explicitly. -/
theorem hungarian_optimal_matching_witness :
    (hungarian dWit [⟨"P1", 1, 0, "grave"⟩] [⟨"H1", 0, 0, some 5⟩] [(0, 0)]).length = 1 ∧
    (hungarian dWit [⟨"P1", 1, 0, "grave"⟩] [⟨"H1", 0, 0, some 5⟩] [(0, 0)]).map
        HungAssignment.patient = ["P1"] := by
  have hopt : ∀ pairs', LSAshape 1 1 pairs' →
      totalCost dWit [⟨"P1", 1, 0, "grave"⟩] [⟨"H1", 0, 0, some 5⟩] [(0, 0)]
        ≤ totalCost dWit [⟨"P1", 1, 0, "grave"⟩] [⟨"H1", 0, 0, some 5⟩] pairs' := by
    intro pairs' hs'
    obtain ⟨hlen', hrange', -, -⟩ := hs'
    cases pairs' with
    | nil => simp at hlen'
    | cons rc t =>
      cases t with
      | nil =>
        obtain ⟨a, b⟩ := rc
        have ha : a < 1 := (hrange' (a, b) (by simp)).1
        have hb : b < 1 := (hrange' (a, b) (by simp)).2
        have ha0 : a = 0 := by omega
        have hb0 : b = 0 := by omega
        subst ha0; subst hb0
        exact le_refl _
      | cons rc2 t2 => simp at hlen'
  have h := hungarian_optimal_matching dWit [⟨"P1", 1, 0, "grave"⟩]
    [⟨"H1", 0, 0, some 5⟩] [(0, 0)] (by decide) hopt (by decide) (by decide)
  exact ⟨by simpa using h.1, by decide⟩

/-- Counting marked members is bounded by the sum of a function that is
non-negative everywhere and at least 1 on the marked members. -/
lemma count_le_sum_int (l : List Patient) (f : Patient → Int) (q : Patient → Bool)
    (hnn : ∀ p ∈ l, 0 ≤ f p) (hq : ∀ p ∈ l, q p = true → 1 ≤ f p) :
    ((l.filter q).length : Int) ≤ (l.map f).sum := by
  induction l with
  | nil => simp
  | cons p t ih =>
    have iht := ih (fun x hx => hnn x (List.mem_cons_of_mem p hx))
      (fun x hx => hq x (List.mem_cons_of_mem p hx))
    by_cases hp : q p
    · have h1 : 1 ≤ f p := hq p (List.mem_cons_self p t) hp
      simp only [List.filter_cons, hp, if_true, List.length_cons, List.map_cons,
        List.sum_cons]
      push_cast
      omega
    · have h0 : 0 ≤ f p := hnn p (List.mem_cons_self p t)
      simp [List.filter_cons, hp]
      omega

/-- An assignment made by the flow interpretation certifies positive flow on
the corresponding patient-to-hospital edge. -/
lemma mcfAssign_pos (dist4 : ℚ → ℚ → ℚ → ℚ → ℚ) (hospitals : List Hospital)
    (fd : String → String → Int) (p : Patient) (hid : String)
    (hassigned : (mcfAssign dist4 hospitals fd p).hospital = some hid) :
    0 < fd p.id hid := by
  unfold mcfAssign at hassigned
  split at hassigned
  · simp at hassigned
  · rename_i h0 hfind
    have hpred := List.find?_some hfind
    simp only [Bool.and_eq_true, decide_eq_true_eq] at hpred
    split at hassigned <;> simp only [Option.some.injEq] at hassigned <;>
      exact hassigned ▸ hpred.1.1

/-- C1, Min-Cost-Flow part: under the solver's feasibility contract, the
assignments to a positively-capacitated hospital never exceed its starting
capacity. -/
lemma mcf_capacity_le (dist4 : ℚ → ℚ → ℚ → ℚ → ℚ)
    (patients : List Patient) (hospitals : List Hospital) (h : Hospital) (cap : Int)
    (hmem : h ∈ hospitals) (hcap : h.capacity = some cap) (hpos : 0 < cap)
    (fd : String → String → Int) (hff : FeasibleFlow patients hospitals fd) :
    (countAssigned (min_cost_flow dist4 patients hospitals (some fd)) h.id : Int)
      ≤ cap := by
  obtain ⟨hS, hPH, hHT, hconsP, hconsH, hdem⟩ := hff
  unfold min_cost_flow countAssigned
  rw [List.filter_map, List.length_map]
  have hcount := count_le_sum_int patients (fun p => fd p.id h.id)
    (fun p => decide ((mcfAssign dist4 hospitals fd p).hospital = some h.id))
    (fun p hp => (hPH p hp h hmem).1)
    (fun p _ hq => by
      have hflow := mcfAssign_pos dist4 hospitals fd p h.id (by simpa using hq)
      show (1 : Int) ≤ fd p.id h.id
      omega)
  calc ((patients.filter ((fun a => decide (a.hospital = some h.id)) ∘
            mcfAssign dist4 hospitals fd)).length : Int)
      ≤ (patients.map fun p => fd p.id h.id).sum := hcount
    _ = fd h.id "T" := hconsH h hmem
    _ ≤ hospCapF patients.length h := (hHT h hmem).2
    _ = cap := by simp [hospCapF, hcap, not_le.mpr hpos]

/-- C5: on any instance with two patients and one hospital of capacity 2,
any feasible solver flow (the modelled `network_simplex` contract) makes
`min_cost_flow` assign both patients to that hospital, recording for each
the direct distance between the patient and the hospital. -/
theorem mcf_two_patients_one_hospital (dist4 : ℚ → ℚ → ℚ → ℚ → ℚ)
    (p1 p2 : Patient) (h : Hospital) (fd : String → String → Int)
    (hcap : h.capacity = some 2)
    (hidS : h.id ≠ "S") (hidT : h.id ≠ "T")
    (hff : FeasibleFlow [p1, p2] [h] fd) :
    min_cost_flow dist4 [p1, p2] [h] (some fd)
      = [⟨p1.id, some h.id, some (dist4 p1.lat p1.lon h.lat h.lon)⟩,
         ⟨p2.id, some h.id, some (dist4 p2.lat p2.lon h.lat h.lon)⟩] := by
  obtain ⟨hS, hPH, hHT, hconsP, hconsH, hdem⟩ := hff
  have hb1 := hS p1 (by simp)
  have hb2 := hS p2 (by simp)
  have hsum : fd "S" p1.id + fd "S" p2.id = 2 := by simpa using hdem
  have hc1 := hconsP p1 (by simp)
  have hc2 := hconsP p2 (by simp)
  simp only [List.map_cons, List.map_nil, List.sum_cons, List.sum_nil, add_zero]
    at hc1 hc2
  have hf1 : 0 < fd p1.id h.id := by omega
  have hf2 : 0 < fd p2.id h.id := by omega
  simp [min_cost_flow, mcfAssign, List.find?, hf1, hf2, hidS, hidT]

/-- Solver-flow fixture for the C5 witness: one unit from S through each of
the two patients into the single hospital, two units onward to T. -/
def fdW : String → String → Int := fun u v =>
  if u = "S" then 1
  else if v = "T" then 2
  else if u = "Q1" ∨ u = "Q2" then 1
  else 0

/-- Witness for C5 at a concrete instance and concrete feasible flow. -/
theorem mcf_two_patients_one_hospital_witness :
    FeasibleFlow [⟨"Q1", 1, 0, "grave"⟩, ⟨"Q2", 2, 0, "leve"⟩]
      [⟨"H9", 5, 5, some 2⟩] fdW ∧
    min_cost_flow dWit [⟨"Q1", 1, 0, "grave"⟩, ⟨"Q2", 2, 0, "leve"⟩]
        [⟨"H9", 5, 5, some 2⟩] (some fdW)
      = [⟨"Q1", some "H9", some 11⟩, ⟨"Q2", some "H9", some 12⟩] := by
  constructor
  · decide
  · rw [mcf_two_patients_one_hospital dWit ⟨"Q1", 1, 0, "grave"⟩ ⟨"Q2", 2, 0, "leve"⟩
      ⟨"H9", 5, 5, some 2⟩ fdW rfl (by decide) (by decide) (by decide)]
    decide

/-- C1: for every patient and hospital list (with the duplicate-free ids the
data model guarantees) and every hospital whose declared starting capacity
is a positive integer, no solver run assigns more patients to that hospital
than its starting capacity: Greedy by its capacity bookkeeping; Hungarian
(under the modelled `linear_sum_assignment` shape contract) because it uses
each hospital at most once; Min-Cost-Flow both on solver success (under the
modelled `network_simplex` feasibility contract) and on solver failure. -/
theorem capacity_never_exceeded (dist4 : ℚ → ℚ → ℚ → ℚ → ℚ)
    (patients : List Patient) (hospitals : List Hospital) (h : Hospital) (cap : Int)
    (hmem : h ∈ hospitals) (hcap : h.capacity = some cap) (hpos : 0 < cap)
    (hnodupH : (hospitals.map Hospital.id).Nodup) :
    ((countAssigned (greedy_assign dist4 patients hospitals) h.id : Int) ≤ cap) ∧
    (∀ pairs, LSAshape patients.length hospitals.length pairs →
      (countHosp (hungarian dist4 patients hospitals pairs) h.id : Int) ≤ cap) ∧
    (∀ fd, FeasibleFlow patients hospitals fd →
      (countAssigned (min_cost_flow dist4 patients hospitals (some fd)) h.id : Int) ≤ cap) ∧
    ((countAssigned (min_cost_flow dist4 patients hospitals none) h.id : Int) ≤ cap) := by
  refine ⟨greedy_capacity_le dist4 patients hospitals h cap hnodupH hmem hcap hpos,
    fun pairs hs => hungarian_capacity_le dist4 patients hospitals h cap hnodupH hpos pairs hs,
    fun fd hff => mcf_capacity_le dist4 patients hospitals h cap hmem hcap hpos fd hff,
    ?_⟩
  have hz : countAssigned (min_cost_flow dist4 patients hospitals none) h.id = 0 := by
    unfold min_cost_flow countAssigned
    rw [List.filter_map, List.length_map]
    simp [Function.comp]
  rw [hz]
  omega

/-- Witness for C1 at a concrete instance; the single patient is assigned
once, within the capacity bound. -/
theorem capacity_never_exceeded_witness :
    ((countAssigned (greedy_assign dWit [⟨"Q1", 1, 0, "grave"⟩]
        [⟨"H9", 5, 5, some 2⟩]) "H9" : Int) ≤ 2) ∧
    countAssigned (greedy_assign dWit [⟨"Q1", 1, 0, "grave"⟩]
        [⟨"H9", 5, 5, some 2⟩]) "H9" = 1 := by
  have h := capacity_never_exceeded dWit [⟨"Q1", 1, 0, "grave"⟩] [⟨"H9", 5, 5, some 2⟩]
    ⟨"H9", 5, 5, some 2⟩ 2 (by decide) rfl (by decide) (by decide)
  exact ⟨h.1, by decide⟩
